import Mathlib

/-!
Shallow embedding of the regex-to-grammar translator of this repository.

The main translator is `parse_regex_to_grammar` from
`src/tutorial_3/tutorial3/reggie_submisison.py`; the second, divergent
implementation lives in `src/tutorial_3/tutorial3/reggie.py`
(`check_rule`, `make_Subexpression`, `split_String`, `recursiveBuild`).

Python dictionaries are embedded as insertion-ordered association lists
(`Grammar`); `dict` assignment keeps the key position on overwrite
(`aupd`), and `list.append` on a dict entry is `aAppend`.  Python's
`str(i)` is embedded by `natToStr`, `char.upper()` by `pyUpper` (ASCII
fragment), `"".join` by `pyJoin`, `str.split('|')` by `pySplitPipe`,
`sorted` by `List.insertionSort` and `str.strip` by `pyStrip`.
`str.isalpha` is embedded by `Char.isAlpha` (the ASCII fragment of
Python's Unicode predicate).  Python `while` loops and recursion are
embedded with an explicit step budget (`fuel`); every caller passes a
budget that provably suffices (the scan consumes at least one input
position per step), so the budget-exhausted branch is never taken.
-/

namespace Reggie

/-- A grammar: insertion-ordered map from non-terminal name to its list of
productions (each production a flat string, as in the Python source). -/
abbrev Grammar := List (String × List String)

/-- Lookup in an insertion-ordered association list (Python `dict.get`). -/
def alook (g : Grammar) (k : String) : Option (List String) :=
  match g with
  | [] => none
  | (k', v) :: rest => if k' = k then some v else alook rest k

/-- Update/insert in an insertion-ordered association list (Python `dict`
assignment: overwrite keeps the original key position, a new key goes to
the end). -/
def aupd (g : Grammar) (k : String) (v : List String) : Grammar :=
  match g with
  | [] => [(k, v)]
  | (k', v') :: rest => if k' = k then (k, v) :: rest else (k', v') :: aupd rest k v

/-- Python `grammar[k].append(p)` (every call site has the key present). -/
def aAppend (g : Grammar) (k : String) (p : String) : Grammar :=
  aupd g k ((alook g k).getD [] ++ [p])

/-- Python `set.add` on the alphabet (kept as a duplicate-free list). -/
def setInsert (A : List Char) (c : Char) : List Char :=
  if c ∈ A then A else A ++ [c]

/-- Decimal digit character, for embedding Python `str(i)`. -/
def digitChr (d : Nat) : Char :=
  if d = 0 then '0' else if d = 1 then '1' else if d = 2 then '2'
  else if d = 3 then '3' else if d = 4 then '4' else if d = 5 then '5'
  else if d = 6 then '6' else if d = 7 then '7' else if d = 8 then '8' else '9'

/-- Accumulator loop of the decimal printer (`fuel` bounds the number of
digits; `natToStr` passes a sufficient budget). -/
def natToStrAux : Nat → Nat → List Char → List Char
  | 0, _, acc => acc
  | fuel + 1, n, acc =>
      if n = 0 then acc
      else natToStrAux fuel (n / 10) (digitChr (n % 10) :: acc)

/-- Embedding of Python `str(i)` for natural `i`. -/
def natToStr (n : Nat) : String :=
  if n = 0 then "0" else String.mk (natToStrAux (n + 1) n [])

/-- Embedding of Python `char.upper()` (ASCII fragment). -/
def pyUpper (c : Char) : Char :=
  if 97 ≤ c.toNat ∧ c.toNat ≤ 122 then Char.ofNat (c.toNat - 32) else c

/-- The name `f"<{char.upper()}>"` generated by `kleene_non_terminal`. -/
def kleeneName (c : Char) : String := "<" ++ String.mk [pyUpper c] ++ ">"

/-- `kleene_non_terminal` from `reggie_submisison.py`: sets
`grammar[nt] = [char + nt, ""]` and returns the non-terminal name. -/
def kleene_non_terminal (g : Grammar) (c : Char) : Grammar × String :=
  (aupd g (kleeneName c) [String.mk [c] ++ kleeneName c, ""], kleeneName c)

/-- Embedding of Python `"".join(l)`. -/
def pyJoin (l : List String) : String := String.mk (l.map String.data).flatten

/-- Accumulator loop of `str.split('|')`. -/
def splitPipeAux (cs : List Char) (acc : List Char) : List String :=
  match cs with
  | [] => [String.mk acc]
  | c :: rest =>
      if c = '|' then String.mk acc :: splitPipeAux rest []
      else splitPipeAux rest (acc ++ [c])

/-- Embedding of Python `s.split('|')` (keeps empty pieces, as Python does). -/
def pySplitPipe (cs : List Char) : List String := splitPipeAux cs []

/-- The inner `while` loop of the `'('` case of `parse_regex_to_grammar`:
starting at `j` with the given depth, find the position of the matching
`')'` (depth back to zero) or fall off the end of the string.  The first
argument is the step budget; `scan` passes `l.length + 1`, which always
suffices since `j` grows by one per step. -/
def findClose : Nat → List Char → Nat → Int → Nat
  | 0, _, j, _ => j
  | fuel + 1, l, j, depth =>
    if h : j < l.length then
      if l.get ⟨j, h⟩ = '(' then findClose fuel l (j + 1) (depth + 1)
      else if l.get ⟨j, h⟩ = ')' then
        if depth - 1 = 0 then j else findClose fuel l (j + 1) (depth - 1)
      else findClose fuel l (j + 1) depth
    else j

/-- The name `f"<SUB{i}>"` of the non-terminal generated for the
parenthesized group starting at scan position `i`. -/
def subName (i : Nat) : String := "<SUB" ++ natToStr i ++ ">"

/-- The grammar updates of the `'('` case of `parse_regex_to_grammar`:
`grammar[sub_nt] = []` followed by appending every `'|'`-separated part
of the group body. -/
def parenGrammar (g : Grammar) (i : Nat) (subexpr : List Char) : Grammar :=
  (pySplitPipe subexpr).foldl (fun acc p => aAppend acc (subName i) p)
    (aupd g (subName i) [])

/-- The main `while i < len(regex)` scan of `parse_regex_to_grammar`,
with the loop state (alphabet, grammar, current `subexpressions`) passed
explicitly.  The first argument is the step budget;
`parse_regex_to_grammar` passes `l.length + 1`, which always suffices
since `i` grows by at least one per step. -/
def scan : Nat → List Char → Nat → List Char → Grammar → List String →
    List Char × Grammar × List String
  | 0, _, _, A, g, subs => (A, g, subs)
  | fuel + 1, l, i, A, g, subs =>
    if h : i < l.length then
      if (l.get ⟨i, h⟩).isAlpha then
        if l[i + 1]? = some '*' then
          scan fuel l (i + 2) (setInsert A (l.get ⟨i, h⟩))
            (kleene_non_terminal g (l.get ⟨i, h⟩)).1
            (subs ++ [(kleene_non_terminal g (l.get ⟨i, h⟩)).2])
        else
          scan fuel l (i + 1) (setInsert A (l.get ⟨i, h⟩)) g
            (subs ++ [String.mk [l.get ⟨i, h⟩]])
      else if l.get ⟨i, h⟩ = '|' then
        if subs ≠ [] then scan fuel l (i + 1) A (aAppend g "<S>" (pyJoin subs)) []
        else scan fuel l (i + 1) A g subs
      else if l.get ⟨i, h⟩ = '(' then
        if l[findClose (l.length + 1) l i 0 + 1]? = some '*' then
          scan fuel l (findClose (l.length + 1) l i 0 + 2) A
            (aAppend (aAppend
              (parenGrammar g i
                ((l.drop (i + 1)).take (findClose (l.length + 1) l i 0 - (i + 1))))
              "<S>" (subName i ++ "<S>")) "<S>" "") subs
        else
          scan fuel l (findClose (l.length + 1) l i 0 + 2) A
            (parenGrammar g i
              ((l.drop (i + 1)).take (findClose (l.length + 1) l i 0 - (i + 1))))
            (subs ++ [subName i])
      else scan fuel l (i + 1) A g subs
    else (A, g, subs)

/-- `parse_regex_to_grammar` from `reggie_submisison.py`: returns the
sorted alphabet and the grammar. -/
def parse_regex_to_grammar (regex : String) : List Char × Grammar :=
  let A0 : List Char := (regex.data.filter Char.isAlpha).dedup
  let g0 : Grammar := [("<S>", [])]
  let r := scan (regex.data.length + 1) regex.data 0 A0 g0 []
  let g1 := if r.2.2 ≠ [] then aAppend r.2.1 "<S>" (pyJoin r.2.2) else r.2.1
  (List.insertionSort (· ≤ ·) r.1, g1)

/-! ## Embedding of `reggie.py` -/

/-- Python runtime errors raised by `reggie.py` (indexing an empty
string/list raises `IndexError`; `len(text[0:-1] != 1)` would raise
`TypeError`). -/
inductive PyErr where
  | indexError : PyErr
  | typeError : PyErr
deriving DecidableEq

deriving instance DecidableEq for Except

/-- `check_rule` from `reggie.py`.  Python returns `False` from the four
`if` branches and falls off the end (returning `None`) otherwise; the
result is embedded as `Option Bool` (`none` = Python `None`). -/
def check_rule (regex : String) : Option Bool :=
  if regex.data.contains '(' then some false
  else if regex.data.contains ')' then some false
  else if regex.data.contains '*' then some false
  else if regex.data.contains '|' then some false
  else none

/-- Python truthiness of an `Option Bool` value (`None` and `False` are
falsy). -/
def truthy : Option Bool → Bool
  | none => false
  | some b => b

/-- Embedding of Python `s.strip(chars)`: remove the given characters
from both ends. -/
def pyStrip (s : String) (cs : List Char) : String :=
  String.mk (((s.data.dropWhile (cs.contains ·)).reverse.dropWhile (cs.contains ·)).reverse)

/-- `make_Subexpression` from `reggie.py`. -/
def make_Subexpression (index : Nat) (termName : String) : String :=
  if index = 0 then "<S>"
  else "<" ++ pyStrip termName ['<', '>'] ++ "." ++ natToStr index ++ ">"

/-- One character step of `split_String`'s loop; the state is
(`string_sublist`, `string`, `brackCount`). -/
def splitStep (st : List String × String × Int) (c : Char) :
    Except PyErr (List String × String × Int) :=
  let lst := st.1
  let s := st.2.1
  let bc := st.2.2
  if c = '(' then
    let p := if s ≠ "" ∧ bc = 0 then (lst ++ [s], "") else (lst, s)
    let s₂ := if bc ≥ 1 then p.2.push '(' else p.2
    .ok (p.1, s₂, bc + 1)
  else if c = ')' then
    if bc - 1 = 0 then .ok (lst ++ [s], "", bc - 1)
    else .ok (lst, s.push ')', bc - 1)
  else if c = '|' then
    if bc = 0 ∧ s ≠ "" then .ok (lst ++ [s.push '|'], "", bc)
    else if s = "" then
      -- `string_sublist[-1] = "(" + string_sublist[-1] + ")" + "|"`;
      -- indexing an empty list raises IndexError
      match lst.getLast? with
      | none => .error .indexError
      | some last => .ok (lst.dropLast ++ ["(" ++ last ++ ")" ++ "|"], s, bc)
    else .ok (lst, s.push c, bc)
  else .ok (lst, s.push c, bc)

/-- The `for` loop of `split_String`. -/
def splitFold (cs : List Char) (st : List String × String × Int) :
    Except PyErr (List String × String × Int) :=
  match cs with
  | [] => .ok st
  | c :: rest =>
    match splitStep st c with
    | .ok st' => splitFold rest st'
    | .error e => .error e

/-- `split_String` from `reggie.py`.  The in-loop check
`if (i == len(regex) - 1 and string != "")` appends the pending string
after the last character has been processed; that is the final append
below (when `regex` is empty the loop never runs and the pending string
is empty, so the guard on the processed string alone is equivalent). -/
def split_String (regex : String) : Except PyErr (List String) :=
  match splitFold regex.data ([], "", 0) with
  | .error e => .error e
  | .ok (lst, s, _) => .ok (if s ≠ "" then lst ++ [s] else lst)

/-- Result of a `recursiveBuild` run: normal return of the new `index`
together with the final grammar (the Python function mutates `grammar`
in place and returns `index`), a raised error, or an exhausted step
budget. -/
inductive RunRes where
  | ok : Nat → Grammar → RunRes
  | err : PyErr → RunRes
  | fuelOut : RunRes
deriving DecidableEq

/-- The `for i in range(0, len(string_sublist))` loop of
`recursiveBuild`, processing the remaining items with state
(`index`, `grammar`).  `rb` is the recursive call to `recursiveBuild`
(with the grammar threaded through, since Python mutates it in place),
`multi` records `len(string_sublist) != 1`, `start` the frame's start
symbol and `term₀` the `term` computed before the loop (used when
`multi` is false). -/
def rbLoop (rb : Grammar → String → Nat → String → RunRes) (multi : Bool)
    (start term₀ termName : String) : List String → Nat → Grammar → RunRes
  | [], index, g => .ok index g
  | text :: rest, index, g =>
    let term := if multi then make_Subexpression index termName else term₀
    let upd : Except PyErr Grammar :=
      if multi then
        match alook g start with
        | none => .ok (aupd g start [term])
        | some [] => .error .indexError  -- `grammar.get(start)[0]` on an empty list
        | some (p :: _) => .ok (aupd g start [p ++ term])
      else .ok g
    match upd with
    | .error e => .err e
    | .ok g₁ =>
      match text.data.getLast? with
      | none => .err .indexError  -- `text[-1]` on the empty string
      | some lastc =>
        if lastc = '*' then
          if truthy (check_rule (String.mk text.data.dropLast)) then
            -- dead branch: `check_rule` never returns a truthy value; Python
            -- would raise TypeError at `len(text[0:-1] != 1)`
            .err .typeError
          else
            let t1 := make_Subexpression (index + 1) termName ++ term
            let g₂ := aupd g₁ term [t1, ""]
            match rb g₂ (String.mk (text.data.take (text.data.length - 2)))
                (index + 1) termName with
            | .ok index' g₃ => rbLoop rb multi start term₀ termName rest index' g₃
            | .err e => .err e
            | .fuelOut => .fuelOut
        else
          let g₂ := aupd g₁ (make_Subexpression index termName) [text]
          rbLoop rb multi start term₀ termName rest (index + 1) g₂

/-- `recursiveBuild` from `reggie.py`.  The first argument is the
recursion-depth budget; a budget of `regex.length + 1` always suffices
(see claim C8).  The `alphabet` parameter is carried but never touched,
exactly as in the source. -/
def recursiveBuild : Nat → List Char → Grammar → String → Nat → String → RunRes
  | 0, _, _, _, _, _ => .fuelOut
  | fuel + 1, alphabet, g, regex, index, termName =>
    match split_String regex with
    | .error e => .err e
    | .ok string_sublist =>
      let start := make_Subexpression index termName
      let term := make_Subexpression index termName
      let index₁ := if string_sublist.length ≠ 1 then index + 1 else index
      rbLoop (fun g' r i t => recursiveBuild fuel alphabet g' r i t)
        (string_sublist.length ≠ 1 : Bool) start term termName
        string_sublist index₁ g

/-! ## Non-terminal references inside a production string

A production in the generated grammar is a flat string; a non-terminal
reference in it is a maximal `<...>` segment.  `refs` extracts these
segments left to right (an unclosed `<` contributes nothing). -/

/-- Scanner state machine extracting `<...>` segments: the second
argument is `none` outside a segment and `some acc` inside one. -/
def refsGo : List Char → Option (List Char) → List String
  | [], _ => []
  | c :: cs, none => if c = '<' then refsGo cs (some []) else refsGo cs none
  | c :: cs, some acc =>
      if c = '>' then ("<" ++ String.mk acc ++ ">") :: refsGo cs none
      else refsGo cs (some (acc ++ [c]))

/-- The non-terminal references of a production string. -/
def refs (s : String) : List String := refsGo s.data none

/-- Whether `k` is a key of the grammar. -/
def isKey (g : Grammar) (k : String) : Bool := (alook g k).isSome

/-- The strings collected in `subexpressions` are atoms: either free of
`'<'` (single alphabetic terminals) or a single complete `<...>`
non-terminal name.  Atoms compose under concatenation without creating
or destroying references. -/
def AtomP (s : String) : Prop :=
  (∀ c ∈ s.data, c ≠ '<') ∨ ∃ m, s.data = '<' :: (m ++ ['>']) ∧ '>' ∉ m

/-- Whether a key has the `f"<SUB{i}>"` shape (its first four characters
are `<SUB`). -/
def isSubKey (k : String) : Bool := k.data.take 4 == ['<', 'S', 'U', 'B']

/-- The invariant behind claim C1: every grammar key other than the
start symbol `<S>` and the group keys `<SUBi>` was written by
`kleene_non_terminal`, with exactly its two productions. -/
def KleeneInv (g : Grammar) : Prop :=
  ∀ k v, alook g k = some v → k ≠ "<S>" → isSubKey k = false →
    ∃ c', c'.isAlpha = true ∧ k = kleeneName c' ∧ v = [String.mk [c'] ++ k, ""]

/-- The grammar is closed (every reference in any production is a key,
and `<S>` is a key) and every pending subexpression is an atom whose
references are keys. -/
def ClosureInv (g : Grammar) (subs : List String) : Prop :=
  isKey g "<S>" = true ∧
  (∀ k ps, alook g k = some ps → ∀ p ∈ ps, ∀ r ∈ refs p, isKey g r = true) ∧
  (∀ s ∈ subs, AtomP s ∧ ∀ r ∈ refs s, isKey g r = true)


/-! ## Concrete sanity checks of the embedding -/

example : natToStr 0 = "0" := by decide
example : natToStr 10 = "10" := by decide
example : pyUpper 'a' = 'A' := by decide
example : kleeneName 's' = "<S>" := by decide
example : pySplitPipe "a|b".data = ["a", "b"] := by decide
example : pySplitPipe "".data = [""] := by decide

example : parse_regex_to_grammar "a" = (['a'], [("<S>", ["a"])]) := by decide
example : parse_regex_to_grammar "a*" =
    (['a'], [("<S>", ["<A>"]), ("<A>", ["a<A>", ""])]) := by decide
example : parse_regex_to_grammar "a|b" =
    (['a', 'b'], [("<S>", ["a", "b"])]) := by decide
example : parse_regex_to_grammar "(a|b)" =
    (['a', 'b'], [("<S>", ["<SUB0>"]), ("<SUB0>", ["a", "b"])]) := by decide
example : parse_regex_to_grammar "(a|b)*" =
    (['a', 'b'], [("<S>", ["<SUB0><S>", ""]), ("<SUB0>", ["a", "b"])]) := by decide
example : parse_regex_to_grammar "(" =
    ([], [("<S>", ["<SUB0>"]), ("<SUB0>", [""])]) := by decide
example : parse_regex_to_grammar "" = ([], [("<S>", [])]) := by decide
example : parse_regex_to_grammar "a*A*" =
    (['A', 'a'], [("<S>", ["<A><A>"]), ("<A>", ["A<A>", ""])]) := by decide
example : parse_regex_to_grammar "s*" =
    (['s'], [("<S>", ["s<S>", "", "<S>"])]) := by decide
example : parse_regex_to_grammar "(<a>)" =
    (['a'], [("<S>", ["<SUB0>"]), ("<SUB0>", ["<a>"])]) := by decide
example : parse_regex_to_grammar "(a*)" =
    (['a'], [("<S>", ["<SUB0>"]), ("<SUB0>", ["a*"])]) := by decide

example : check_rule "a" = none := by decide
example : check_rule "a*" = some false := by decide
example : make_Subexpression 0 "term" = "<S>" := by decide
example : make_Subexpression 1 "term" = "<term.1>" := by decide
example : split_String "a|b" = .ok ["a|", "b"] := by decide
example : split_String "(a)|b" = .ok ["(a)|", "b"] := by decide
example : split_String "|" = .error .indexError := by decide
example : split_String "()" = .ok [""] := by decide
example : recursiveBuild 5 [] [] "a" 0 "term" = .ok 1 [("<S>", ["a"])] := by decide
example : recursiveBuild 5 [] [] "a*" 0 "term" =
    .ok 2 [("<S>", ["<term.1><S>", ""])] := by decide
example : recursiveBuild 5 [] [] "a|b" 0 "term" =
    .ok 3 [("<S>", ["<term.1><term.2>"]), ("<term.1>", ["a|"]), ("<term.2>", ["b"])] := by
  decide
example : recursiveBuild 5 [] [] "()" 0 "term" = .err .indexError := by decide
example : recursiveBuild 0 [] [] "a" 0 "term" = .fuelOut := by decide

example : refs "a<A>" = ["<A>"] := by decide
example : refs "<SUB0><S>" = ["<SUB0>", "<S>"] := by decide
example : refs "ab" = [] := by decide
example : refs "<a" = [] := by decide

/-! ## Basic lemmas about the grammar association list -/

theorem alook_aupd (g : Grammar) (k k' : String) (v : List String) :
    alook (aupd g k v) k' = if k = k' then some v else alook g k' := by
  induction g with
  | nil => simp [aupd, alook]
  | cons e rest ih =>
    obtain ⟨ke, ve⟩ := e
    by_cases hek : ke = k
    · subst hek
      by_cases hkk : ke = k' <;> simp [aupd, alook, hkk]
    · by_cases hek' : ke = k'
      · subst hek'
        simp [aupd, alook, hek, Ne.symm hek]
      · simp [aupd, alook, hek, hek', ih]

theorem isKey_aupd_of_isKey (g : Grammar) (k k' : String) (v : List String)
    (h : isKey g k' = true) : isKey (aupd g k v) k' = true := by
  simp only [isKey, alook_aupd]
  split
  · rfl
  · exact h

theorem isKey_aupd_self (g : Grammar) (k : String) (v : List String) :
    isKey (aupd g k v) k = true := by
  simp [isKey, alook_aupd]

theorem isKey_aAppend_of_isKey (g : Grammar) (k k' : String) (p : String)
    (h : isKey g k' = true) : isKey (aAppend g k p) k' = true :=
  isKey_aupd_of_isKey _ _ _ _ h

theorem alook_aAppend (g : Grammar) (k k' : String) (p : String) :
    alook (aAppend g k p) k' =
      if k = k' then some ((alook g k).getD [] ++ [p]) else alook g k' := by
  simp [aAppend, alook_aupd]

theorem mem_setInsert (A : List Char) (c d : Char) :
    d ∈ setInsert A c ↔ d ∈ A ∨ d = c := by
  unfold setInsert
  split
  · constructor
    · exact fun h => Or.inl h
    · rintro (h | rfl) <;> assumption
  · simp [or_comm]

theorem setInsert_eq_self (A : List Char) (c : Char) (h : c ∈ A) :
    setInsert A c = A := by
  simp [setInsert, h]

/-- Characters of a `split('|')` piece come from the split string. -/
theorem mem_splitPipeAux (cs acc : List Char) (p : String)
    (hp : p ∈ splitPipeAux cs acc) (c : Char) (hc : c ∈ p.data) :
    c ∈ acc ∨ c ∈ cs := by
  induction cs generalizing acc with
  | nil =>
    simp only [splitPipeAux, List.mem_singleton] at hp
    subst hp
    exact Or.inl hc
  | cons d rest ih =>
    simp only [splitPipeAux] at hp
    split at hp
    · rcases List.mem_cons.mp hp with h | h
      · subst h
        simp [hc]
      · rcases ih [] h with h' | h'
        · simp at h'
        · simp [h']
    · rcases ih (acc ++ [d]) hp with h' | h'
      · rcases List.mem_append.mp h' with h'' | h''
        · exact Or.inl h''
        · simp at h''
          simp [h'']
      · simp [h']

theorem mem_pySplitPipe (cs : List Char) (p : String) (hp : p ∈ pySplitPipe cs)
    (c : Char) (hc : c ∈ p.data) : c ∈ cs := by
  rcases mem_splitPipeAux cs [] p hp c hc with h | h
  · simp at h
  · exact h

/-! ## Atoms and reference extraction -/

theorem refsGo_clean_append (cs₁ cs₂ : List Char) (h : ∀ c ∈ cs₁, c ≠ '<') :
    refsGo (cs₁ ++ cs₂) none = refsGo cs₂ none := by
  induction cs₁ with
  | nil => rfl
  | cons c rest ih =>
    have hc : c ≠ '<' := h c (by simp)
    simp only [List.cons_append, refsGo, if_neg hc]
    exact ih (fun d hd => h d (by simp [hd]))

theorem refsGo_clean (cs : List Char) (h : ∀ c ∈ cs, c ≠ '<') :
    refsGo cs none = [] := by
  have := refsGo_clean_append cs [] h
  simpa using this

theorem refs_clean (s : String) (h : ∀ c ∈ s.data, c ≠ '<') : refs s = [] :=
  refsGo_clean _ h

theorem refsGo_acc_append (m : List Char) (hm : '>' ∉ m) :
    ∀ acc cs₂, refsGo (m ++ '>' :: cs₂) (some acc) =
      ("<" ++ String.mk (acc ++ m) ++ ">") :: refsGo cs₂ none := by
  induction m with
  | nil => intro acc cs₂; simp [refsGo]
  | cons c rest ih =>
    intro acc cs₂
    have hc : c ≠ '>' := by rintro rfl; exact hm (by simp)
    have hrest : '>' ∉ rest := fun h => hm (by simp [h])
    simp only [List.cons_append, refsGo, if_neg hc, List.append_eq]
    rw [ih hrest (acc ++ [c]) cs₂]
    simp

theorem refs_bracket (s : String) (m : List Char)
    (hs : s.data = '<' :: (m ++ ['>'])) (hm : '>' ∉ m) : refs s = [s] := by
  have hdata : ("<" ++ String.mk m ++ ">").data = '<' :: (m ++ ['>']) := by
    simp [String.data_append]
  have hseq : ("<" ++ String.mk m ++ ">") = s := String.ext (by rw [hdata, hs])
  rw [refs, hs]
  have : ('<' : Char) :: (m ++ ['>']) = '<' :: (m ++ '>' :: []) := rfl
  rw [this]
  simp only [refsGo, if_pos rfl]
  rw [refsGo_acc_append m hm [] []]
  simp only [List.nil_append, hseq]
  rfl

theorem atom_refs_append (s : String) (hs : AtomP s) (cs : List Char) :
    refsGo (s.data ++ cs) none = refs s ++ refsGo cs none := by
  rcases hs with h | ⟨m, hm, hgt⟩
  · rw [refsGo_clean_append _ _ h, refs_clean s h, List.nil_append]
  · rw [refs_bracket s m hm hgt, hm]
    have h1 : ('<' :: (m ++ ['>'])) ++ cs = '<' :: (m ++ '>' :: cs) := by simp
    rw [h1]
    simp only [refsGo, if_pos rfl]
    rw [refsGo_acc_append m hgt [] cs]
    have hdata : ("<" ++ String.mk m ++ ">").data = '<' :: (m ++ ['>']) := by
      simp [String.data_append]
    have hseq : ("<" ++ String.mk m ++ ">") = s := String.ext (by rw [hdata, hm])
    simp [hseq]

theorem pyJoin_data (s : String) (rest : List String) :
    (pyJoin (s :: rest)).data = s.data ++ (pyJoin rest).data := by
  simp [pyJoin]

/-- A reference appearing in a join of atoms is a reference of one of
the atoms. -/
theorem refs_pyJoin (subs : List String) (h : ∀ s ∈ subs, AtomP s) :
    ∀ r ∈ refs (pyJoin subs), ∃ s ∈ subs, r ∈ refs s := by
  induction subs with
  | nil =>
    intro r hr
    simp [pyJoin, refs, refsGo] at hr
  | cons s rest ih =>
    intro r hr
    rw [refs, pyJoin_data, atom_refs_append s (h s (by simp))] at hr
    rcases List.mem_append.mp hr with h' | h'
    · exact ⟨s, by simp, h'⟩
    · rcases ih (fun t ht => h t (by simp [ht])) r h' with ⟨t, ht, hrt⟩
      exact ⟨t, by simp [ht], hrt⟩

/-! ## Character and generated-name facts -/

theorem isAlpha_ne (c d : Char) (h : c.isAlpha = true) (hd : d.isAlpha = false) :
    c ≠ d := by
  rintro rfl
  rw [h] at hd
  cases hd

theorem pyUpper_ne_gt (c : Char) (h : c.isAlpha = true) : pyUpper c ≠ '>' := by
  unfold pyUpper
  split
  · next hr =>
    obtain ⟨h1, h2⟩ := hr
    obtain ⟨n, hn⟩ : ∃ n, n = c.toNat := ⟨c.toNat, rfl⟩
    rw [← hn] at h1 h2 ⊢
    interval_cases n <;> decide
  · exact isAlpha_ne c '>' h (by decide)

theorem kleeneName_data (c : Char) : (kleeneName c).data = ['<', pyUpper c, '>'] := by
  simp [kleeneName, String.data_append]

theorem kleeneName_atom (c : Char) (h : c.isAlpha = true) : AtomP (kleeneName c) := by
  refine Or.inr ⟨[pyUpper c], ?_, ?_⟩
  · rw [kleeneName_data]; rfl
  · simp [Ne.symm (pyUpper_ne_gt c h)]

theorem kleeneName_inj_iff (c₁ c₂ : Char) :
    kleeneName c₁ = kleeneName c₂ ↔ pyUpper c₁ = pyUpper c₂ := by
  rw [String.ext_iff, kleeneName_data, kleeneName_data]
  simp

theorem kleeneName_eq_start_iff (c : Char) :
    kleeneName c = "<S>" ↔ pyUpper c = 'S' := by
  rw [String.ext_iff, kleeneName_data]
  have h : "<S>".data = ['<', 'S', '>'] := rfl
  rw [h]
  simp

theorem digitChr_mem (d : Nat) :
    digitChr d ∈ ['0', '1', '2', '3', '4', '5', '6', '7', '8', '9'] := by
  unfold digitChr
  repeat' split
  all_goals decide

theorem natToStrAux_chars (fuel : Nat) :
    ∀ n acc c, c ∈ natToStrAux fuel n acc →
      c ∈ acc ∨ c ∈ ['0', '1', '2', '3', '4', '5', '6', '7', '8', '9'] := by
  induction fuel with
  | zero => intro n acc c hc; exact Or.inl hc
  | succ fuel ih =>
    intro n acc c hc
    rw [natToStrAux] at hc
    split at hc
    · exact Or.inl hc
    · rcases ih _ _ _ hc with h | h
      · rcases List.mem_cons.mp h with h' | h'
        · exact Or.inr (h' ▸ digitChr_mem _)
        · exact Or.inl h'
      · exact Or.inr h

theorem natToStr_chars (n : Nat) (c : Char) (hc : c ∈ (natToStr n).data) :
    c ∈ ['0', '1', '2', '3', '4', '5', '6', '7', '8', '9'] := by
  unfold natToStr at hc
  split at hc
  · simp at hc
    simp [hc]
  · rcases natToStrAux_chars _ _ _ _ hc with h | h
    · simp at h
    · exact h

theorem subName_data (i : Nat) :
    (subName i).data = '<' :: (('S' :: 'U' :: 'B' :: (natToStr i).data) ++ ['>']) := by
  simp [subName, String.data_append]

theorem subName_atom (i : Nat) : AtomP (subName i) := by
  refine Or.inr ⟨'S' :: 'U' :: 'B' :: (natToStr i).data, subName_data i, ?_⟩
  intro hmem
  rcases List.mem_cons.mp hmem with h | h
  · cases h
  rcases List.mem_cons.mp h with h' | h'
  · cases h'
  rcases List.mem_cons.mp h' with h'' | h''
  · cases h''
  · have := natToStr_chars i '>' h''
    simp at this

theorem isSubKey_subName (i : Nat) : isSubKey (subName i) = true := by
  simp [isSubKey, subName_data, List.take]

theorem isSubKey_kleeneName (c : Char) : isSubKey (kleeneName c) = false := by
  simp [isSubKey, kleeneName_data, List.take]

theorem subName_ne_start (i : Nat) : subName i ≠ "<S>" := by
  intro h
  have h4 := isSubKey_subName i
  rw [h] at h4
  simp [isSubKey, List.take] at h4

theorem subName_ne_kleeneName (i : Nat) (c : Char) : subName i ≠ kleeneName c := by
  intro h
  have h4 := isSubKey_subName i
  rw [h, isSubKey_kleeneName] at h4
  cases h4

/-! ## A generic preservation principle for the scan loop

Every branch of `scan` transforms the state (alphabet, grammar,
`subexpressions`) in one of six ways; a predicate preserved by each of
them is preserved by the whole loop.  The hypotheses record which
characters of the input can trigger each branch, so branches whose
trigger character does not occur in the input hold vacuously. -/

theorem scan_preserve (l : List Char) (P : List Char → Grammar → List String → Prop)
    (halpha_star : ∀ A g subs c, c ∈ l → c.isAlpha = true → P A g subs →
      P (setInsert A c) (aupd g (kleeneName c) [String.mk [c] ++ kleeneName c, ""])
        (subs ++ [kleeneName c]))
    (halpha : ∀ A g subs c, c ∈ l → c.isAlpha = true → P A g subs →
      P (setInsert A c) g (subs ++ [String.mk [c]]))
    (hpipe : ∀ A g subs, '|' ∈ l → subs ≠ [] → P A g subs →
      P A (aAppend g "<S>" (pyJoin subs)) [])
    (hparen : ∀ A g subs i (subexpr : List Char), '(' ∈ l →
      (∀ c ∈ subexpr, c ∈ l) → P A g subs →
      P A (parenGrammar g i subexpr) (subs ++ [subName i]))
    (hparen_star : ∀ A g subs i (subexpr : List Char), '(' ∈ l →
      (∀ c ∈ subexpr, c ∈ l) → P A g subs →
      P A (aAppend (aAppend (parenGrammar g i subexpr)
            "<S>" (subName i ++ "<S>")) "<S>" "") subs) :
    ∀ fuel i A g subs, P A g subs →
      P (scan fuel l i A g subs).1 (scan fuel l i A g subs).2.1
        (scan fuel l i A g subs).2.2 := by
  intro fuel
  induction fuel with
  | zero => intro i A g subs hP; simpa [scan] using hP
  | succ fuel ih =>
    intro i A g subs hP
    rw [scan]
    split
    · next h =>
      have hmem : l.get ⟨i, h⟩ ∈ l := l.get_mem _ _
      split
      · next halph =>
        split
        · exact ih _ _ _ _ (halpha_star _ _ _ _ hmem halph hP)
        · exact ih _ _ _ _ (halpha _ _ _ _ hmem halph hP)
      · split
        · next hpc =>
          split
          · next hne => exact ih _ _ _ _ (hpipe _ _ _ (hpc ▸ hmem) hne hP)
          · exact ih _ _ _ _ hP
        · split
          · next hoc =>
            have hsub : ∀ c ∈ (l.drop (i + 1)).take
                (findClose (l.length + 1) l i 0 - (i + 1)), c ∈ l := by
              intro c hc
              exact List.mem_of_mem_drop (List.mem_of_mem_take hc)
            split
            · exact ih _ _ _ _ (hparen_star _ _ _ _ _ (hoc ▸ hmem) hsub hP)
            · exact ih _ _ _ _ (hparen _ _ _ _ _ (hoc ▸ hmem) hsub hP)
          · exact ih _ _ _ _ hP
    · exact hP

/-! ## Lemmas about `parenGrammar` and fold-appends -/

theorem isKey_foldl_aAppend (parts : List String) (g : Grammar) (k0 k : String)
    (h : isKey g k = true) :
    isKey (parts.foldl (fun acc p => aAppend acc k0 p) g) k = true := by
  induction parts generalizing g with
  | nil => exact h
  | cons p rest ih => exact ih _ (isKey_aAppend_of_isKey _ _ _ _ h)

theorem alook_foldl_aAppend_ne (parts : List String) (g : Grammar) (k0 k : String)
    (h : k0 ≠ k) :
    alook (parts.foldl (fun acc p => aAppend acc k0 p) g) k = alook g k := by
  induction parts generalizing g with
  | nil => rfl
  | cons p rest ih =>
    rw [List.foldl_cons, ih, alook_aAppend, if_neg h]

theorem alook_foldl_aAppend_self (parts : List String) (g : Grammar) (k0 : String)
    (v : List String) (h : alook g k0 = some v) :
    alook (parts.foldl (fun acc p => aAppend acc k0 p) g) k0 = some (v ++ parts) := by
  induction parts generalizing g v with
  | nil => simpa using h
  | cons p rest ih =>
    have h1 : alook (aAppend g k0 p) k0 = some (v ++ [p]) := by
      rw [alook_aAppend, if_pos rfl, h]
      rfl
    have := ih _ _ h1
    simpa using this

theorem alook_parenGrammar_self (g : Grammar) (i : Nat) (se : List Char) :
    alook (parenGrammar g i se) (subName i) = some (pySplitPipe se) := by
  unfold parenGrammar
  have h0 : alook (aupd g (subName i) []) (subName i) = some [] := by
    rw [alook_aupd, if_pos rfl]
  have := alook_foldl_aAppend_self (pySplitPipe se) _ _ _ h0
  simpa using this

theorem alook_parenGrammar_ne (g : Grammar) (i : Nat) (se : List Char) (k : String)
    (h : subName i ≠ k) : alook (parenGrammar g i se) k = alook g k := by
  unfold parenGrammar
  rw [alook_foldl_aAppend_ne _ _ _ _ h, alook_aupd, if_neg h]

theorem isKey_parenGrammar_of_isKey (g : Grammar) (i : Nat) (se : List Char)
    (k : String) (h : isKey g k = true) : isKey (parenGrammar g i se) k = true :=
  isKey_foldl_aAppend _ _ _ _ (isKey_aupd_of_isKey _ _ _ _ h)

theorem isKey_parenGrammar_self (g : Grammar) (i : Nat) (se : List Char) :
    isKey (parenGrammar g i se) (subName i) = true := by
  simp [isKey, alook_parenGrammar_self]

/-! ## Specialized reference computations -/

theorem subName_inner_no_gt (i : Nat) :
    '>' ∉ 'S' :: 'U' :: 'B' :: (natToStr i).data := by
  intro hmem
  rcases List.mem_cons.mp hmem with h | h
  · cases h
  rcases List.mem_cons.mp h with h' | h'
  · cases h'
  rcases List.mem_cons.mp h' with h'' | h''
  · cases h''
  · have := natToStr_chars i '>' h''
    simp at this

theorem refs_subName (i : Nat) : refs (subName i) = [subName i] :=
  refs_bracket _ _ (subName_data i) (subName_inner_no_gt i)

theorem refs_kleeneName (c : Char) (h : c.isAlpha = true) :
    refs (kleeneName c) = [kleeneName c] :=
  refs_bracket _ [pyUpper c] (by rw [kleeneName_data]; rfl)
    (by simp [Ne.symm (pyUpper_ne_gt c h)])

theorem start_atom : AtomP "<S>" :=
  Or.inr ⟨['S'], rfl, by decide⟩

theorem refs_append_atom (s t : String) (hs : AtomP s) :
    refs (s ++ t) = refs s ++ refs t := by
  rw [refs, String.data_append, atom_refs_append s hs]
  rfl

theorem refs_singleton_append (c : Char) (t : String) (hc : c ≠ '<') :
    refs (String.mk [c] ++ t) = refs t := by
  rw [refs_append_atom _ _ (Or.inl (by simpa using hc))]
  rw [refs_clean _ (by simpa using hc)]
  rfl

/-! ## Keys of the grammar are stable under the scan (claims C10, C3, C4) -/

/-- Any key present in the grammar stays present through the scan. -/
theorem scan_isKey (l : List Char) (k : String) :
    ∀ fuel i A g subs, isKey g k = true →
      isKey (scan fuel l i A g subs).2.1 k = true := by
  intro fuel i A g subs h
  exact (scan_preserve l (fun _ g _ => isKey g k = true)
    (fun A g subs c _ _ hP => isKey_aupd_of_isKey _ _ _ _ hP)
    (fun A g subs c _ _ hP => hP)
    (fun A g subs _ _ hP => isKey_aAppend_of_isKey _ _ _ _ hP)
    (fun A g subs i se _ _ hP => isKey_parenGrammar_of_isKey _ _ _ _ hP)
    (fun A g subs i se _ _ hP =>
      isKey_aAppend_of_isKey _ _ _ _
        (isKey_aAppend_of_isKey _ _ _ _ (isKey_parenGrammar_of_isKey _ _ _ _ hP)))
    fuel i A g subs h)

/-- The scan never changes the alphabet when it already contains every
alphabetic character of the input. -/
theorem scan_alphabet (l : List Char) :
    ∀ fuel i A g subs, (∀ c, c ∈ A ↔ (c ∈ l ∧ c.isAlpha = true)) →
      (∀ c, c ∈ (scan fuel l i A g subs).1 ↔ (c ∈ l ∧ c.isAlpha = true)) := by
  intro fuel i A g subs h
  exact (scan_preserve l (fun A _ _ => ∀ c, c ∈ A ↔ (c ∈ l ∧ c.isAlpha = true))
    (fun A g subs c hcl hca hP => by
      rw [setInsert_eq_self A c ((hP c).mpr ⟨hcl, hca⟩)]; exact hP)
    (fun A g subs c hcl hca hP => by
      rw [setInsert_eq_self A c ((hP c).mpr ⟨hcl, hca⟩)]; exact hP)
    (fun A g subs _ _ hP => hP)
    (fun A g subs i se _ _ hP => hP)
    (fun A g subs i se _ _ hP => hP)
    fuel i A g subs h)

/-- On whitespace-only suffixes the scan is a no-op. -/
theorem scan_whitespace (l : List Char) (hws : ∀ c ∈ l, c.isWhitespace = true) :
    ∀ fuel i A g, scan fuel l i A g [] = (A, g, []) := by
  have hnotalpha : ∀ c ∈ l, c.isAlpha = false := by
    intro c hc
    have h := hws c hc
    simp [Char.isWhitespace] at h
    rcases h with ((rfl | rfl) | rfl) | rfl <;> decide
  intro fuel
  induction fuel with
  | zero => intro i A g; rfl
  | succ fuel ih =>
    intro i A g
    rw [scan]
    split
    · next hi =>
      have hmem : l[i] ∈ l := List.getElem_mem hi
      have halpha : l[i].isAlpha = false := hnotalpha _ hmem
      rw [if_neg (by simp [halpha])]
      have hpipe : ¬ (l.get ⟨i, hi⟩ = '|') := by
        intro hc
        have hw : (l.get ⟨i, hi⟩).isWhitespace = true := hws _ hmem
        rw [hc] at hw
        cases hw
      have hparen : ¬ (l.get ⟨i, hi⟩ = '(') := by
        intro hc
        have hw : (l.get ⟨i, hi⟩).isWhitespace = true := hws _ hmem
        rw [hc] at hw
        cases hw
      rw [if_neg hpipe, if_neg hparen]
      exact ih (i + 1) A g
    · rfl

/-! ## The kleene-shape invariant (claim C1)

Every grammar key other than the start symbol `<S>` and the group keys
`<SUBi>` was written by `kleene_non_terminal`: it is `<upper(c)>` for
some alphabetic `c` and its value is exactly the two productions
`[c<upper(c)>, ""]`. -/

theorem scan_kleeneInv (l : List Char) :
    ∀ fuel i A g subs, KleeneInv g → KleeneInv (scan fuel l i A g subs).2.1 := by
  intro fuel i A g subs h
  refine scan_preserve l (fun _ g _ => KleeneInv g) ?_ ?_ ?_ ?_ ?_ fuel i A g subs h
  · intro A g subs c _ hca hP k v hkv hkS hkSub
    rw [alook_aupd] at hkv
    split at hkv
    · next heq =>
      injection hkv with hv
      exact ⟨c, hca, heq.symm, by rw [← hv, ← heq]⟩
    · exact hP k v hkv hkS hkSub
  · intro A g subs c _ _ hP
    exact hP
  · intro A g subs _ _ hP k v hkv hkS hkSub
    rw [alook_aAppend, if_neg (fun he => hkS he.symm)] at hkv
    exact hP k v hkv hkS hkSub
  · intro A g subs i se _ _ hP k v hkv hkS hkSub
    have hne : subName i ≠ k := by
      intro he
      rw [← he, isSubKey_subName] at hkSub
      cases hkSub
    rw [alook_parenGrammar_ne _ _ _ _ hne] at hkv
    exact hP k v hkv hkS hkSub
  · intro A g subs i se _ _ hP k v hkv hkS hkSub
    rw [alook_aAppend, if_neg (fun he => hkS he.symm),
      alook_aAppend, if_neg (fun he => hkS he.symm)] at hkv
    have hne : subName i ≠ k := by
      intro he
      rw [← he, isSubKey_subName] at hkSub
      cases hkSub
    rw [alook_parenGrammar_ne _ _ _ _ hne] at hkv
    exact hP k v hkv hkS hkSub

/-! ## The closure invariant (claim C5) -/


theorem closure_subs_nil (g : Grammar) (subs : List String)
    (h : ClosureInv g subs) : ClosureInv g [] :=
  ⟨h.1, h.2.1, by simp⟩

theorem closure_subs_snoc (g : Grammar) (subs : List String) (s : String)
    (h : ClosureInv g subs) (hs : AtomP s) (hr : ∀ r ∈ refs s, isKey g r = true) :
    ClosureInv g (subs ++ [s]) := by
  refine ⟨h.1, h.2.1, ?_⟩
  intro t ht
  rcases List.mem_append.mp ht with h' | h'
  · exact h.2.2 t h'
  · simp at h'
    subst h'
    exact ⟨hs, hr⟩

theorem closure_aupd (g : Grammar) (subs : List String) (k0 : String)
    (v0 : List String) (h : ClosureInv g subs)
    (hv : ∀ p ∈ v0, ∀ r ∈ refs p, isKey (aupd g k0 v0) r = true) :
    ClosureInv (aupd g k0 v0) subs := by
  obtain ⟨hS, hprod, hsubs⟩ := h
  refine ⟨isKey_aupd_of_isKey _ _ _ _ hS, ?_, ?_⟩
  · intro k ps hkps p hp r hr
    rw [alook_aupd] at hkps
    split at hkps
    · injection hkps with hps
      exact hv p (hps ▸ hp) r hr
    · exact isKey_aupd_of_isKey _ _ _ _ (hprod k ps hkps p hp r hr)
  · intro s hs
    obtain ⟨hat, hrefs⟩ := hsubs s hs
    exact ⟨hat, fun r hr => isKey_aupd_of_isKey _ _ _ _ (hrefs r hr)⟩

theorem closure_append_prod (g : Grammar) (subs : List String) (p0 : String)
    (h : ClosureInv g subs) (hp0 : ∀ r ∈ refs p0, isKey g r = true) :
    ClosureInv (aAppend g "<S>" p0) subs := by
  obtain ⟨hS, hprod, hsubs⟩ := h
  obtain ⟨v, hv⟩ := Option.isSome_iff_exists.mp hS
  refine ⟨isKey_aAppend_of_isKey _ _ _ _ hS, ?_, ?_⟩
  · intro k ps hkps p hp r hr
    rw [alook_aAppend] at hkps
    split at hkps
    · injection hkps with hps
      rw [← hps, hv] at hp
      simp only [Option.getD_some] at hp
      rcases List.mem_append.mp hp with h' | h'
      · exact isKey_aAppend_of_isKey _ _ _ _ (hprod _ _ hv p h' r hr)
      · simp at h'
        subst h'
        exact isKey_aAppend_of_isKey _ _ _ _ (hp0 r hr)
    · exact isKey_aAppend_of_isKey _ _ _ _ (hprod k ps hkps p hp r hr)
  · intro s hs
    obtain ⟨hat, hrefs⟩ := hsubs s hs
    exact ⟨hat, fun r hr => isKey_aAppend_of_isKey _ _ _ _ (hrefs r hr)⟩

theorem closure_kleene (g : Grammar) (subs : List String) (c : Char)
    (hca : c.isAlpha = true) (h : ClosureInv g subs) :
    ClosureInv (aupd g (kleeneName c) [String.mk [c] ++ kleeneName c, ""])
      (subs ++ [kleeneName c]) := by
  have hlt : c ≠ '<' := isAlpha_ne c '<' hca (by decide)
  have hrefs1 : refs (String.mk [c] ++ kleeneName c) = [kleeneName c] := by
    rw [refs_singleton_append c _ hlt, refs_kleeneName c hca]
  have hkey : isKey (aupd g (kleeneName c) [String.mk [c] ++ kleeneName c, ""])
      (kleeneName c) = true := isKey_aupd_self _ _ _
  have h1 : ClosureInv (aupd g (kleeneName c) [String.mk [c] ++ kleeneName c, ""]) subs := by
    refine closure_aupd g subs _ _ h ?_
    intro p hp r hr
    rcases List.mem_cons.mp hp with h' | h'
    · subst h'
      rw [hrefs1] at hr
      simp at hr
      subst hr
      exact hkey
    · simp at h'
      subst h'
      simp [refs, refsGo] at hr
  refine closure_subs_snoc _ _ _ h1 (kleeneName_atom c hca) ?_
  intro r hr
  rw [refs_kleeneName c hca] at hr
  simp at hr
  subst hr
  exact hkey

theorem closure_parenGrammar (l : List Char) (hlt : '<' ∉ l) (g : Grammar)
    (subs : List String) (i : Nat) (se : List Char) (hse : ∀ c ∈ se, c ∈ l)
    (h : ClosureInv g subs) : ClosureInv (parenGrammar g i se) subs := by
  obtain ⟨hS, hprod, hsubs⟩ := h
  have hparts : ∀ p ∈ pySplitPipe se, refs p = [] := by
    intro p hp
    refine refs_clean p ?_
    intro c hc
    intro heq
    subst heq
    exact hlt (hse _ (mem_pySplitPipe se p hp _ hc))
  refine ⟨isKey_parenGrammar_of_isKey _ _ _ _ hS, ?_, ?_⟩
  · intro k ps hkps p hp r hr
    by_cases hk : subName i = k
    · subst hk
      rw [alook_parenGrammar_self] at hkps
      injection hkps with hps
      rw [← hps] at hp
      rw [hparts p hp] at hr
      cases hr
    · rw [alook_parenGrammar_ne _ _ _ _ hk] at hkps
      exact isKey_parenGrammar_of_isKey _ _ _ _ (hprod k ps hkps p hp r hr)
  · intro s hs
    obtain ⟨hat, hrefs⟩ := hsubs s hs
    exact ⟨hat, fun r hr => isKey_parenGrammar_of_isKey _ _ _ _ (hrefs r hr)⟩

theorem scan_closureInv (l : List Char) (hlt : '<' ∉ l) :
    ∀ fuel i A g subs, ClosureInv g subs →
      ClosureInv (scan fuel l i A g subs).2.1 (scan fuel l i A g subs).2.2 := by
  intro fuel i A g subs h
  refine scan_preserve l (fun _ g subs => ClosureInv g subs) ?_ ?_ ?_ ?_ ?_ fuel i A g subs h
  · intro A g subs c _ hca hP
    exact closure_kleene g subs c hca hP
  · intro A g subs c _ hca hP
    have hc : c ≠ '<' := isAlpha_ne c '<' hca (by decide)
    refine closure_subs_snoc _ _ _ hP (Or.inl (by simpa using hc)) ?_
    intro r hr
    rw [refs_clean _ (by simpa using hc)] at hr
    cases hr
  · intro A g subs _ _ hP
    refine closure_subs_nil _ subs (closure_append_prod g subs (pyJoin subs) hP ?_)
    intro r hr
    rcases refs_pyJoin subs (fun s hs => (hP.2.2 s hs).1) r hr with ⟨s, hs, hrs⟩
    exact (hP.2.2 s hs).2 r hrs
  · intro A g subs i se _ hse hP
    refine closure_subs_snoc _ _ _
      (closure_parenGrammar l hlt g subs i se hse hP) (subName_atom i) ?_
    intro r hr
    rw [refs_subName] at hr
    simp at hr
    subst hr
    exact isKey_parenGrammar_self _ _ _
  · intro A g subs i se _ hse hP
    have h2 := closure_parenGrammar l hlt g subs i se hse hP
    have hrefs2 : refs (subName i ++ "<S>") = [subName i, "<S>"] := by
      rw [refs_append_atom _ _ (subName_atom i), refs_subName]
      rfl
    have h3 := closure_append_prod _ _ (subName i ++ "<S>") h2 ?_
    · have h4 := closure_append_prod _ _ "" h3 ?_
      · exact h4
      · intro r hr
        simp [refs, refsGo] at hr
    · intro r hr
      rw [hrefs2] at hr
      rcases List.mem_cons.mp hr with h' | h'
      · subst h'
        exact isKey_parenGrammar_self _ _ _
      · simp at h'
        subst h'
        exact h2.1

/-! ## Parse-level consequences of the scan invariants -/

theorem parse_isKey_start (regex : String) :
    isKey (parse_regex_to_grammar regex).2 "<S>" = true := by
  have h := scan_isKey regex.data "<S>" (regex.data.length + 1) 0
    ((regex.data.filter Char.isAlpha).dedup) [("<S>", [])] [] (by decide)
  simp only [parse_regex_to_grammar]
  split
  · exact isKey_aAppend_of_isKey _ _ _ _ h
  · exact h

theorem parse_kleeneInv (regex : String) :
    KleeneInv (parse_regex_to_grammar regex).2 := by
  have hinit : KleeneInv [("<S>", [])] := by
    intro k v hkv hkS hkSub
    simp only [alook] at hkv
    split at hkv
    · next heq => exact absurd heq.symm hkS
    · cases hkv
  have h := scan_kleeneInv regex.data (regex.data.length + 1) 0
    ((regex.data.filter Char.isAlpha).dedup) [("<S>", [])] [] hinit
  simp only [parse_regex_to_grammar]
  split
  · intro k v hkv hkS hkSub
    rw [alook_aAppend, if_neg (fun he => hkS he.symm)] at hkv
    exact h k v hkv hkS hkSub
  · exact h

theorem parse_closureInv (regex : String) (hlt : '<' ∉ regex.data) :
    ∃ subs, ClosureInv (parse_regex_to_grammar regex).2 subs := by
  have hinit : ClosureInv [("<S>", [])] [] := by
    refine ⟨by decide, ?_, by simp⟩
    intro k ps hkps p hp r hr
    simp only [alook] at hkps
    split at hkps
    · injection hkps with hps
      rw [← hps] at hp
      simp at hp
    · cases hkps
  have h := scan_closureInv regex.data hlt (regex.data.length + 1) 0
    ((regex.data.filter Char.isAlpha).dedup) [("<S>", [])] [] hinit
  simp only [parse_regex_to_grammar]
  split
  · refine ⟨_, closure_subs_nil _ _ (closure_append_prod _ _ _ h ?_)⟩
    intro r hr
    rcases refs_pyJoin _ (fun s hs => (h.2.2 s hs).1) r hr with ⟨s, hs, hrs⟩
    exact (h.2.2 s hs).2 r hrs
  · exact ⟨_, h⟩

theorem parse_alphabet (regex : String) :
    (∀ c, c ∈ (parse_regex_to_grammar regex).1 ↔ (c ∈ regex.data ∧ c.isAlpha = true)) ∧
      List.Sorted (· ≤ ·) (parse_regex_to_grammar regex).1 := by
  have hinit : ∀ c, c ∈ (regex.data.filter Char.isAlpha).dedup ↔
      (c ∈ regex.data ∧ c.isAlpha = true) := by
    intro c
    rw [List.mem_dedup, List.mem_filter]
  have h := scan_alphabet regex.data (regex.data.length + 1) 0
    ((regex.data.filter Char.isAlpha).dedup) [("<S>", [])] [] hinit
  constructor
  · intro c
    simp only [parse_regex_to_grammar]
    rw [(List.perm_insertionSort (· ≤ ·) _).mem_iff]
    exact h c
  · simp only [parse_regex_to_grammar]
    exact List.sorted_insertionSort (· ≤ ·) _

theorem parse_whitespace (s : String) (hws : ∀ c ∈ s.data, c.isWhitespace = true) :
    parse_regex_to_grammar s = ([], [("<S>", [])]) := by
  have hsc := scan_whitespace s.data hws (s.data.length + 1) 0 [] [("<S>", [])]
  have hfilter : s.data.filter Char.isAlpha = [] := by
    rw [List.filter_eq_nil_iff]
    intro c hc
    have h := hws c hc
    simp [Char.isWhitespace] at h
    rcases h with ((rfl | rfl) | rfl) | rfl <;> decide
  simp only [parse_regex_to_grammar, hfilter, List.dedup_nil]
  rw [hsc]
  simp [List.insertionSort]

/-! ## Behaviour on an unbalanced leading parenthesis (claim C2) -/

theorem scan_ge_length (fuel : Nat) (l : List Char) (i : Nat) (A : List Char)
    (g : Grammar) (subs : List String) (h : l.length ≤ i) :
    scan fuel l i A g subs = (A, g, subs) := by
  cases fuel with
  | zero => rfl
  | succ fuel =>
    rw [scan]
    rw [dif_neg (by omega)]

theorem findClose_no_paren (l : List Char) :
    ∀ fuel j d, l.length - j < fuel → j ≤ l.length → d ≠ 0 →
      (∀ p (hp : p < l.length), j ≤ p → l.get ⟨p, hp⟩ ≠ '(' ∧ l.get ⟨p, hp⟩ ≠ ')') →
      findClose fuel l j d = l.length := by
  intro fuel
  induction fuel with
  | zero => intro j d h1 h2 h3 h4; omega
  | succ fuel ih =>
    intro j d h1 h2 h3 h4
    rw [findClose]
    split
    · next hj =>
      rw [if_neg (h4 j hj (Nat.le_refl j)).1, if_neg (h4 j hj (Nat.le_refl j)).2]
      exact ih (j + 1) d (by omega) (by omega) h3
        (fun p hp hjp => h4 p hp (by omega))
    · omega

theorem pyJoin_single (s : String) : pyJoin [s] = s := by
  refine String.ext ?_
  simp [pyJoin]

theorem parse_unbalanced_group (rest : String) (h1 : '(' ∉ rest.data)
    (h2 : ')' ∉ rest.data) :
    alook (parse_regex_to_grammar ("(" ++ rest)).2 "<S>" = some [subName 0] ∧
      alook (parse_regex_to_grammar ("(" ++ rest)).2 (subName 0) =
        some (pySplitPipe rest.data) := by
  have hdata : ("(" ++ rest).data = '(' :: rest.data := by
    rw [String.data_append]
    rfl
  have hlen : ('(' :: rest.data).length = rest.data.length + 1 := rfl
  have hfc : findClose (('(' :: rest.data).length + 1) ('(' :: rest.data) 0 0 =
      ('(' :: rest.data).length := by
    rw [findClose]
    rw [dif_pos (by simp)]
    have hget : ('(' :: rest.data).get ⟨0, by simp⟩ = '(' := rfl
    rw [if_pos hget]
    refine findClose_no_paren _ _ 1 1 (by omega) (by omega) (by omega) ?_
    intro p hp hjp
    match p, hjp with
    | p + 1, _ =>
      have hmem : rest.data.get ⟨p, by simpa using hp⟩ ∈ rest.data := List.get_mem _ _ _
      constructor
      · intro he
        exact h1 (he ▸ hmem)
      · intro he
        exact h2 (he ▸ hmem)
  have hscan : scan (('(' :: rest.data).length + 1) ('(' :: rest.data) 0
      ((('(' :: rest.data).filter Char.isAlpha).dedup) [("<S>", [])] [] =
      ((('(' :: rest.data).filter Char.isAlpha).dedup,
        parenGrammar [("<S>", [])] 0 rest.data, [subName 0]) := by
    rw [scan]
    rw [dif_pos (by simp)]
    have hget : ('(' :: rest.data).get ⟨0, by simp⟩ = '(' := rfl
    rw [if_neg (by rw [hget]; simp), if_neg (by rw [hget]; decide), if_pos hget]
    rw [hfc]
    have hnone : ('(' :: rest.data)[('(' :: rest.data).length + 1]? = none := by
      rw [List.getElem?_eq_none]
      omega
    rw [if_neg (by rw [hnone]; simp)]
    have hsubexpr : (('(' :: rest.data).drop (0 + 1)).take
        (('(' :: rest.data).length - (0 + 1)) = rest.data := by
      simp
    rw [hsubexpr]
    rw [scan_ge_length _ _ _ _ _ _ (by omega)]
    rfl
  have hgp := parenGrammar [("<S>", [])] 0 rest.data
  constructor
  · simp only [parse_regex_to_grammar, hdata, hscan]
    rw [if_pos (by simp)]
    rw [alook_aAppend, if_pos rfl]
    rw [alook_parenGrammar_ne _ _ _ _ (subName_ne_start 0)]
    simp only [alook, if_pos rfl]
    rw [pyJoin_single]
    rfl
  · simp only [parse_regex_to_grammar, hdata, hscan]
    rw [if_pos (by simp)]
    rw [alook_aAppend, if_neg (Ne.symm (subName_ne_start 0))]
    exact alook_parenGrammar_self _ _ _

/-! ## `check_rule` is always falsy and the guarded branch is dead (claim C9) -/

theorem check_rule_falsy (s : String) : truthy (check_rule s) = false := by
  simp only [check_rule]
  repeat' split
  all_goals rfl

theorem rbLoop_ne_typeError (rb : Grammar → String → Nat → String → RunRes)
    (hrb : ∀ g r i t, rb g r i t ≠ .err .typeError) (multi : Bool)
    (start term₀ tn : String) :
    ∀ items index g, rbLoop rb multi start term₀ tn items index g ≠ .err .typeError := by
  intro items
  induction items with
  | nil =>
    intro index g h
    simp [rbLoop] at h
  | cons text rest ih =>
    intro index g h
    simp only [rbLoop] at h
    split at h
    · next e heq =>
      injection h with h'
      subst h'
      split at heq
      · split at heq
        · cases heq
        · injection heq with h2
          cases h2
        · cases heq
      · cases heq
    · next g₁ heq =>
      split at h
      · injection h with h'
        cases h'
      · split at h
        · split at h
          · next hguard =>
            rw [check_rule_falsy] at hguard
            cases hguard
          · split at h
            · exact ih _ _ h
            · next e heq2 =>
              injection h with h'
              subst h'
              exact hrb _ _ _ _ heq2
            · cases h
        · exact ih _ _ h

theorem splitStep_error (st : List String × String × Int) (c : Char) (e : PyErr)
    (h : splitStep st c = .error e) : e = .indexError := by
  simp only [splitStep] at h
  repeat' split at h
  all_goals cases h
  all_goals rfl

theorem splitFold_error : ∀ (cs : List Char) st (e : PyErr),
    splitFold cs st = .error e → e = .indexError := by
  intro cs
  induction cs with
  | nil => intro st e h; cases h
  | cons c rest ih =>
    intro st e h
    rw [splitFold] at h
    split at h
    · exact ih _ _ h
    · next e2 heq =>
      injection h with h'
      subst h'
      exact splitStep_error _ _ _ heq

theorem split_String_error (regex : String) (e : PyErr)
    (h : split_String regex = .error e) : e = .indexError := by
  unfold split_String at h
  split at h
  · next e2 heq =>
    injection h with h'
    subst h'
    exact splitFold_error _ _ _ heq
  · cases h

theorem recursiveBuild_ne_typeError :
    ∀ fuel alphabet g regex index tn,
      recursiveBuild fuel alphabet g regex index tn ≠ .err .typeError := by
  intro fuel
  induction fuel with
  | zero =>
    intro alphabet g regex index tn h
    cases h
  | succ fuel ih =>
    intro alphabet g regex index tn h
    simp only [recursiveBuild] at h
    split at h
    · next e heq =>
      injection h with h'
      subst h'
      have := split_String_error _ _ heq
      simp at this
    · exact rbLoop_ne_typeError _ (fun g' r i t => ih alphabet g' r i t) _ _ _ _ _ _ _ h

/-! ## Length bound on `split_String` pieces (towards claim C8)

Every piece produced by `split_String` either has length at most the
input length or ends in `'|'` (the wrapped pieces produced by the
`string_sublist[-1]` mutation).  `recursiveBuild` recurses only on
pieces ending in `'*'`, so those are short enough for the recursion to
terminate. -/

theorem pylen_push (s : String) (c : Char) : (s.push c).length = s.length + 1 := by
  show (s.push c).data.length = s.data.length + 1
  rw [String.data_push]
  simp

theorem splitStep_bound (N : Nat) (st st' : List String × String × Int) (c : Char)
    (n : Nat) (hn : n < N) (h : splitStep st c = .ok st')
    (hs : st.2.1.length ≤ n)
    (hlst : ∀ e ∈ st.1, e.length ≤ N ∨ e.data.getLast? = some '|') :
    st'.2.1.length ≤ n + 1 ∧
      ∀ e ∈ st'.1, e.length ≤ N ∨ e.data.getLast? = some '|' := by
  have hempty : ("" : String).length = 0 := rfl
  have hflush : ∀ e ∈ st.1 ++ [st.2.1], e.length ≤ N ∨ e.data.getLast? = some '|' := by
    intro e he
    rcases List.mem_append.mp he with h' | h'
    · exact hlst e h'
    · simp at h'
      subst h'
      exact Or.inl (by omega)
  simp only [splitStep] at h
  split at h
  · -- '(' case
    split at h
    · split at h
      · injection h with h'
        rw [← h']
        refine ⟨?_, hflush⟩
        show (("" : String).push '(').length ≤ n + 1
        rw [pylen_push]
        omega
      · injection h with h'
        rw [← h']
        refine ⟨?_, hflush⟩
        show ("" : String).length ≤ n + 1
        rw [hempty]
        omega
    · split at h
      · injection h with h'
        rw [← h']
        refine ⟨?_, hlst⟩
        show (st.2.1.push '(').length ≤ n + 1
        rw [pylen_push]
        omega
      · injection h with h'
        rw [← h']
        exact ⟨Nat.le_trans hs (Nat.le_succ n), hlst⟩
  · -- not '(': split on ')'
    split at h
    · -- ')' case
      split at h
      · injection h with h'
        rw [← h']
        refine ⟨?_, hflush⟩
        show ("" : String).length ≤ n + 1
        rw [hempty]
        omega
      · injection h with h'
        rw [← h']
        refine ⟨?_, hlst⟩
        show (st.2.1.push ')').length ≤ n + 1
        rw [pylen_push]
        omega
    · -- not ')': split on '|'
      split at h
      · -- '|' case
        split at h
        · injection h with h'
          rw [← h']
          refine ⟨?_, ?_⟩
          · show ("" : String).length ≤ n + 1
            rw [hempty]
            omega
          · intro e he
            rcases List.mem_append.mp he with h' | h'
            · exact hlst e h'
            · simp at h'
              subst h'
              refine Or.inl ?_
              rw [pylen_push]
              omega
        · split at h
          · split at h
            · cases h
            · next last hlast =>
              injection h with h'
              rw [← h']
              refine ⟨Nat.le_trans hs (Nat.le_succ n), ?_⟩
              intro e he
              rcases List.mem_append.mp he with h' | h'
              · exact hlst e (List.dropLast_subset _ h')
              · simp at h'
                subst h'
                refine Or.inr ?_
                show (("(" ++ last ++ ")" ++ "|" : String)).data.getLast? = some '|'
                rw [String.data_append]
                have hp : ("|" : String).data = ['|'] := rfl
                rw [hp]
                exact List.getLast?_concat _
          · injection h with h'
            rw [← h']
            refine ⟨?_, hlst⟩
            show (st.2.1.push c).length ≤ n + 1
            rw [pylen_push]
            omega
      · -- other characters
        injection h with h'
        rw [← h']
        refine ⟨?_, hlst⟩
        show (st.2.1.push c).length ≤ n + 1
        rw [pylen_push]
        omega

theorem splitFold_bound (N : Nat) :
    ∀ (cs : List Char) st st' n, splitFold cs st = .ok st' →
      n + cs.length ≤ N → st.2.1.length ≤ n →
      (∀ e ∈ st.1, e.length ≤ N ∨ e.data.getLast? = some '|') →
      st'.2.1.length ≤ N ∧
        (∀ e ∈ st'.1, e.length ≤ N ∨ e.data.getLast? = some '|') := by
  intro cs
  induction cs with
  | nil =>
    intro st st' n h hN hs hlst
    rw [splitFold] at h
    injection h with h'
    subst h'
    exact ⟨by simpa using Nat.le_trans hs (by omega), hlst⟩
  | cons c rest ih =>
    intro st st' n h hN hs hlst
    rw [splitFold] at h
    split at h
    · next st₁ heq =>
      obtain ⟨hs₁, hlst₁⟩ := splitStep_bound N st st₁ c n (by simp at hN; omega)
        heq hs hlst
      exact ih st₁ st' (n + 1) h (by simp at hN ⊢; omega) hs₁ hlst₁
    · cases h

theorem split_String_bound (regex : String) (lst : List String)
    (h : split_String regex = .ok lst) :
    ∀ e ∈ lst, e.length ≤ regex.length ∨ e.data.getLast? = some '|' := by
  unfold split_String at h
  split at h
  · cases h
  · next lst₀ s0 bc heq =>
    obtain ⟨hs, hlst⟩ := splitFold_bound regex.length regex.data ([], "", 0)
      (lst₀, s0, bc) 0 heq (by show 0 + regex.data.length ≤ regex.data.length; omega)
      (by show ("" : String).length ≤ 0; rfl)
      (by simp)
    injection h with h'
    subst h'
    intro e he
    split at he
    · rcases List.mem_append.mp he with h' | h'
      · exact hlst e h'
      · simp at h'
        subst h'
        exact Or.inl hs
    · exact hlst e he

theorem split_String_star_bound (regex : String) (lst : List String) (e : String)
    (h : split_String regex = .ok lst) (he : e ∈ lst)
    (hstar : e.data.getLast? = some '*') : e.length ≤ regex.length := by
  rcases split_String_bound regex lst h e he with h' | h'
  · exact h'
  · rw [hstar] at h'
    injection h' with h''
    cases h''

/-! ## A recursion budget of `length + 1` suffices (claim C8) -/

theorem rbLoop_no_fuelOut (fuel : Nat) (alphabet : List Char) (multi : Bool)
    (start term₀ tn : String)
    (hrb : ∀ g r i t, r.length < fuel →
      recursiveBuild fuel alphabet g r i t ≠ .fuelOut) :
    ∀ items, (∀ e ∈ items, e.data.getLast? = some '*' → e.data.length - 2 < fuel) →
      ∀ index g, rbLoop (fun g' r i t => recursiveBuild fuel alphabet g' r i t)
        multi start term₀ tn items index g ≠ .fuelOut := by
  intro items
  induction items with
  | nil =>
    intro _ index g h
    simp [rbLoop] at h
  | cons text rest ih =>
    intro hitems index g h
    simp only [rbLoop] at h
    split at h
    · cases h
    · split at h
      · cases h
      · next lastc hlast =>
        split at h
        · next hstar₀ =>
          split at h
          · cases h
          · split at h
            · exact ih (fun e he hs => hitems e (by simp [he]) hs) _ _ h
            · cases h
            · next heq2 =>
              have hlen : (String.mk (text.data.take (text.data.length - 2))).length
                  < fuel := by
                have hb := hitems text (by simp) (by rw [hlast, hstar₀])
                show (text.data.take (text.data.length - 2)).length < fuel
                rw [List.length_take]
                omega
              exact hrb _ _ _ _ hlen heq2
        · exact ih (fun e he hs => hitems e (by simp [he]) hs) _ _ h

theorem recursiveBuild_no_fuelOut :
    ∀ fuel alphabet g regex index tn, regex.length < fuel →
      recursiveBuild fuel alphabet g regex index tn ≠ .fuelOut := by
  intro fuel
  induction fuel with
  | zero =>
    intro _ _ _ _ _ h
    omega
  | succ fuel ih =>
    intro alphabet g regex index tn hlen h
    simp only [recursiveBuild] at h
    split at h
    · cases h
    · next lst heq =>
      refine rbLoop_no_fuelOut fuel alphabet _ _ _ _
        (fun g' r i t hr => ih alphabet g' r i t hr) lst ?_ _ _ h
      intro e he hstar
      have hb := split_String_star_bound regex lst e heq he hstar
      by_cases hf : fuel = 0
      · subst hf
        have h0 : e.data.length = 0 := by
          have : e.length = e.data.length := rfl
          omega
        rw [List.length_eq_zero] at h0
        rw [h0] at hstar
        cases hstar
      · have : e.data.length = e.length := rfl
        omega

/-! ## `recursiveBuild` keeps every key of the grammar it is given
(claim C7: state passed in is retained, so results depend on it) -/

theorem rbLoop_keys (fuel : Nat) (alphabet : List Char) (multi : Bool)
    (start term₀ tn : String)
    (hrb : ∀ g r i t i' g' k, isKey g k = true →
      recursiveBuild fuel alphabet g r i t = .ok i' g' → isKey g' k = true) :
    ∀ items index g i' g' k, isKey g k = true →
      rbLoop (fun g'' r i t => recursiveBuild fuel alphabet g'' r i t)
        multi start term₀ tn items index g = .ok i' g' →
      isKey g' k = true := by
  intro items
  induction items with
  | nil =>
    intro index g i' g' k hk h
    rw [rbLoop] at h
    injection h with h1 h2
    rw [← h2]
    exact hk
  | cons text rest ih =>
    intro index g i' g' k hk h
    simp only [rbLoop] at h
    split at h
    · cases h
    · next g₁ hupd =>
      have hk₁ : isKey g₁ k = true := by
        split at hupd
        · split at hupd
          · injection hupd with h'
            rw [← h']
            exact isKey_aupd_of_isKey _ _ _ _ hk
          · cases hupd
          · injection hupd with h'
            rw [← h']
            exact isKey_aupd_of_isKey _ _ _ _ hk
        · injection hupd with h'
          rw [← h']
          exact hk
      split at h
      · cases h
      · split at h
        · split at h
          · cases h
          · split at h
            · next i₁ g₃ heq2 =>
              exact ih _ _ _ _ _ (hrb _ _ _ _ _ _ _
                (isKey_aupd_of_isKey _ _ _ _ hk₁) heq2) h
            · cases h
            · cases h
        · exact ih _ _ _ _ _ (isKey_aupd_of_isKey _ _ _ _ hk₁) h

theorem recursiveBuild_keys :
    ∀ fuel alphabet g regex index tn i' g' k, isKey g k = true →
      recursiveBuild fuel alphabet g regex index tn = .ok i' g' →
      isKey g' k = true := by
  intro fuel
  induction fuel with
  | zero =>
    intro alphabet g regex index tn i' g' k hk h
    cases h
  | succ fuel ih =>
    intro alphabet g regex index tn i' g' k hk h
    simp only [recursiveBuild] at h
    split at h
    · cases h
    · exact rbLoop_keys fuel alphabet _ _ _ _
        (fun g'' r i t i'' g''' k' => ih alphabet g'' r i t i'' g''' k') _ _ _ _ _ _ hk h

/-! ## The scan result does not depend on the step budget beyond the
input length (the loop reaches its end; claim C8) -/

theorem findClose_ge : ∀ fuel (l : List Char) j depth, j ≤ findClose fuel l j depth := by
  intro fuel
  induction fuel with
  | zero => intro l j depth; exact Nat.le_refl j
  | succ fuel ih =>
    intro l j depth
    rw [findClose]
    split
    · split
      · exact Nat.le_trans (Nat.le_succ j) (ih l (j + 1) _)
      · split
        · split
          · exact Nat.le_refl j
          · exact Nat.le_trans (Nat.le_succ j) (ih l (j + 1) _)
        · exact Nat.le_trans (Nat.le_succ j) (ih l (j + 1) _)
    · exact Nat.le_refl j

theorem scan_fuel_congr (l : List Char) :
    ∀ n fuel₁ fuel₂ i A g subs, l.length - i ≤ n →
      l.length - i < fuel₁ → l.length - i < fuel₂ →
      scan fuel₁ l i A g subs = scan fuel₂ l i A g subs := by
  intro n
  induction n with
  | zero =>
    intro fuel₁ fuel₂ i A g subs h0 h1 h2
    rw [scan_ge_length _ _ _ _ _ _ (by omega), scan_ge_length _ _ _ _ _ _ (by omega)]
  | succ n ih =>
    intro fuel₁ fuel₂ i A g subs h0 h1 h2
    by_cases hi : i < l.length
    · obtain ⟨f₁, rfl⟩ : ∃ f, fuel₁ = f + 1 := ⟨fuel₁ - 1, by omega⟩
      obtain ⟨f₂, rfl⟩ : ∃ f, fuel₂ = f + 1 := ⟨fuel₂ - 1, by omega⟩
      rw [scan, scan, dif_pos hi, dif_pos hi]
      have hfc := findClose_ge (l.length + 1) l i 0
      split
      · split
        · exact ih f₁ f₂ (i + 2) _ _ _ (by omega) (by omega) (by omega)
        · exact ih f₁ f₂ (i + 1) _ _ _ (by omega) (by omega) (by omega)
      · split
        · split
          · exact ih f₁ f₂ (i + 1) _ _ _ (by omega) (by omega) (by omega)
          · exact ih f₁ f₂ (i + 1) _ _ _ (by omega) (by omega) (by omega)
        · split
          · split
            · exact ih f₁ f₂ _ _ _ _ (by omega) (by omega) (by omega)
            · exact ih f₁ f₂ _ _ _ _ (by omega) (by omega) (by omega)
          · exact ih f₁ f₂ (i + 1) _ _ _ (by omega) (by omega) (by omega)
    · rw [scan_ge_length _ _ _ _ _ _ (by omega), scan_ge_length _ _ _ _ _ _ (by omega)]

/-! ## Claim theorems -/

/-- C1 (counterexample): in the pattern `a*A*` the subexpression `a` is
immediately followed by `*`, yet no non-terminal of the returned grammar
has exactly the two productions `[a·N, ε]`: the name `<A>` generated for
`a` was reused for the later starred symbol `A`, whose productions
overwrote those of `a`. -/
theorem C1_counterexample :
    (parse_regex_to_grammar "a*A*").2 = [("<S>", ["<A><A>"]), ("<A>", ["A<A>", ""])] ∧
      ((parse_regex_to_grammar "a*A*").2.all
        (fun e => e.2 != ["a" ++ e.1, ""])) = true := by
  decide

/-- C1 (amended): star expansion holds in the converse form the code
guarantees: every key of the returned grammar other than the start
symbol `<S>` and the group keys `<SUBi>` was allocated for a top-level
starred alphabetic symbol; it is named `<upper(c')>` for some alphabetic
`c'` and has exactly the two productions `[c'·N, ε]` (recursive case
then epsilon).  Starred symbols sharing an uppercase letter overwrite
one another, a starred symbol whose uppercase is `S` writes into the
start symbol, a starred group allocates no fresh non-terminal (its
recursive and epsilon alternatives go to `<S>`), and starred symbols
inside groups are copied verbatim without expansion. -/
theorem C1_star_expansion_amended (regex : String) (k : String) (v : List String)
    (hk : alook (parse_regex_to_grammar regex).2 k = some v) (hS : k ≠ "<S>")
    (hsub : isSubKey k = false) :
    ∃ c', c'.isAlpha = true ∧ k = kleeneName c' ∧ v = [String.mk [c'] ++ k, ""] :=
  parse_kleeneInv regex k v hk hS hsub

/-- C1 (witness): the amended theorem applied to the pattern `a*`, whose
grammar maps `<A>` to exactly `[a<A>, ε]`. -/
theorem C1_star_expansion_witness :
    ∃ c', c'.isAlpha = true ∧ "<A>" = kleeneName c' ∧
      (["a<A>", ""] : List String) = [String.mk [c'] ++ "<A>", ""] :=
  C1_star_expansion_amended "a*" "<A>" ["a<A>", ""] (by decide) (by decide) (by decide)

/-- C2 (counterexample): the unbalanced input `"("` does not fail with
any error: `parse_regex_to_grammar` returns a normal (alphabet, grammar)
pair, refuting "translation fails with UnsupportedSyntaxError and no
pair is returned" (no such error exists in the code). -/
theorem C2_counterexample :
    parse_regex_to_grammar "(" = ([], [("<S>", ["<SUB0>"]), ("<SUB0>", [""])]) := by
  decide

/-- C2 (amended): there is no balance check.  For any input `"(" ++ w`
where `w` contains no parenthesis (so the counts of `(` and `)` are
unequal), translation returns normally, treating the unclosed group as
extending to the end of the string: `<S>` derives the group non-terminal
`<SUB0>`, whose productions are the `|`-separated pieces of `w`. -/
theorem C2_unbalanced_amended (rest : String) (h1 : '(' ∉ rest.data)
    (h2 : ')' ∉ rest.data) :
    alook (parse_regex_to_grammar ("(" ++ rest)).2 "<S>" = some [subName 0] ∧
      alook (parse_regex_to_grammar ("(" ++ rest)).2 (subName 0) =
        some (pySplitPipe rest.data) :=
  parse_unbalanced_group rest h1 h2

/-- C2 (witness): the amended theorem applied to the unbalanced input
`"(a"`. -/
theorem C2_unbalanced_witness :
    alook (parse_regex_to_grammar ("(" ++ "a")).2 "<S>" = some [subName 0] ∧
      alook (parse_regex_to_grammar ("(" ++ "a")).2 (subName 0) =
        some (pySplitPipe "a".data) :=
  C2_unbalanced_amended "a" (by decide) (by decide)

/-- C3 (counterexample): the empty input does not fail with
EmptyInputError (no such error exists in the code): a normal pair with
an empty alphabet and the grammar `{<S>: []}` is returned. -/
theorem C3_counterexample :
    parse_regex_to_grammar "" = ([], [("<S>", [])]) := by
  decide

/-- C3 (amended): on every empty or whitespace-only pattern, translation
returns normally with the empty alphabet and the grammar `{<S>: []}`;
no error is raised and no EmptyInputError exists. -/
theorem C3_empty_amended (s : String) (hws : ∀ c ∈ s.data, c.isWhitespace = true) :
    parse_regex_to_grammar s = ([], [("<S>", [])]) :=
  parse_whitespace s hws

/-- C3 (witness): the amended theorem applied to the whitespace-only
input `" "`. -/
theorem C3_empty_witness : parse_regex_to_grammar " " = ([], [("<S>", [])]) :=
  C3_empty_amended " " (by decide)

/-- C4: for every input pattern the returned alphabet contains exactly
the alphabetic characters of the pattern — every alphabetic character of
the pattern is in the alphabet, every alphabet element is an alphabetic
character of the pattern — and the returned sequence is sorted. -/
theorem C4_alphabet_exact (regex : String) :
    (∀ c, c ∈ (parse_regex_to_grammar regex).1 ↔
      (c ∈ regex.data ∧ c.isAlpha = true)) ∧
      List.Sorted (· ≤ ·) (parse_regex_to_grammar regex).1 :=
  parse_alphabet regex

/-- C5 (counterexample): on input `"(<a>)"` the grammar returned by
translation contains the production `"<a>"` (copied verbatim from the
group body), whose referenced non-terminal `<a>` is not a key of the
grammar — a dangling reference. -/
theorem C5_counterexample :
    (parse_regex_to_grammar "(<a>)").2 =
        [("<S>", ["<SUB0>"]), ("<SUB0>", ["<a>"])] ∧
      refs "<a>" = ["<a>"] ∧
      alook (parse_regex_to_grammar "(<a>)").2 "<a>" = none := by
  decide

/-- C5 (amended): closure holds for every pattern not containing the
character `<`: every non-terminal referenced (maximal `<...>` segment)
in the right-hand side of any production of the returned grammar is
itself a key of the grammar.  Patterns containing `<` inside a
parenthesized group can produce dangling references, since group bodies
are copied verbatim. -/
theorem C5_closure_amended (regex : String) (hlt : '<' ∉ regex.data) (k : String)
    (ps : List String) (hk : alook (parse_regex_to_grammar regex).2 k = some ps)
    (p : String) (hp : p ∈ ps) (r : String) (hr : r ∈ refs p) :
    isKey (parse_regex_to_grammar regex).2 r = true := by
  obtain ⟨subs, hinv⟩ := parse_closureInv regex hlt
  exact hinv.2.1 k ps hk p hp r hr

/-- C5 (witness): the amended theorem applied to `"(a|b)*"`: the
reference `<SUB0>` inside the `<S>` production `<SUB0><S>` is a key. -/
theorem C5_closure_witness :
    isKey (parse_regex_to_grammar "(a|b)*").2 "<SUB0>" = true :=
  C5_closure_amended "(a|b)*" (by decide) "<S>" ["<SUB0><S>", ""] (by decide)
    "<SUB0><S>" (by decide) "<SUB0>" (by decide)

/-- C6 (counterexample): generated names are not unique and can equal
the start symbol: the non-terminal generated for the starred symbol `s`
is literally `<S>`, the designated start symbol, and on input `"s*"` the
generated productions are merged into the start symbol's entry. -/
theorem C6_counterexample :
    kleeneName 's' = "<S>" ∧
      (parse_regex_to_grammar "s*").2 = [("<S>", ["s<S>", "", "<S>"])] := by
  decide

/-- C6 (amended): generated non-terminal names are derived from content,
not from a counter: the name for a starred symbol `c` is
`<upper(c)>`, so two starred symbols collide exactly when their
uppercase letters agree, and the generated name equals the start symbol
exactly when that letter is `S`.  Group names `<SUBi>` never collide
with kleene names or with the start symbol. -/
theorem C6_naming_amended :
    (∀ c₁ c₂ : Char, kleeneName c₁ = kleeneName c₂ ↔ pyUpper c₁ = pyUpper c₂) ∧
      (∀ c : Char, kleeneName c = "<S>" ↔ pyUpper c = 'S') ∧
      (∀ (i : Nat) (c : Char), subName i ≠ kleeneName c ∧ subName i ≠ "<S>") :=
  ⟨kleeneName_inj_iff, kleeneName_eq_start_iff,
    fun i c => ⟨subName_ne_kleeneName i c, subName_ne_start i⟩⟩

/-- C7 (counterexample): `recursiveBuild` from `reggie.py` is not free of
cross-call state: it mutates the grammar dictionary it is given (the
module passes one shared global).  After a first invocation on `"a|b"`,
a second invocation on `"c"` returns a grammar still containing the
first call's entries, different from the result of a fresh invocation
on `"c"`. -/
theorem C7_counterexample :
    recursiveBuild 5 [] [] "a|b" 0 "term" =
        .ok 3 [("<S>", ["<term.1><term.2>"]), ("<term.1>", ["a|"]),
          ("<term.2>", ["b"])] ∧
      recursiveBuild 5 []
          [("<S>", ["<term.1><term.2>"]), ("<term.1>", ["a|"]), ("<term.2>", ["b"])]
          "c" 0 "term" ≠
        recursiveBuild 5 [] [] "c" 0 "term" := by
  decide

/-- C7 (amended): translation is deterministic as a function of the
pattern and the incoming grammar state, but `recursiveBuild`'s result
depends on that state: every key of the grammar passed in is retained in
the grammar of a successful run, so entries from an earlier invocation
survive into the next when the caller shares the dictionary (as the
module-level code of `reggie.py` does).  `parse_regex_to_grammar`
creates fresh state on each call and has no such dependence. -/
theorem C7_state_retention_amended (fuel : Nat) (alphabet : List Char) (g : Grammar)
    (regex : String) (index : Nat) (tn k : String) (i' : Nat) (g' : Grammar)
    (hk : isKey g k = true)
    (h : recursiveBuild fuel alphabet g regex index tn = .ok i' g') :
    isKey g' k = true :=
  recursiveBuild_keys fuel alphabet g regex index tn i' g' k hk h

/-- C7 (witness): the amended theorem applied to a run of
`recursiveBuild` on `"a"` starting from a grammar holding a leftover key
`<Q>`; the key survives in the result. -/
theorem C7_state_retention_witness :
    isKey [("<Q>", []), ("<S>", ["a"])] "<Q>" = true :=
  C7_state_retention_amended 2 [] [("<Q>", [])] "a" 0 "term" "<Q>" 1
    [("<Q>", []), ("<S>", ["a"])] (by decide) (by decide)

/-- C8: translation terminates on every input string.  The scan loop of
`parse_regex_to_grammar` consumes at least one position per step, so its
result is independent of any step budget beyond the input length; and
the recursion of `recursiveBuild` never exhausts a recursion budget of
`length + 1` (each recursive call strictly shrinks the string), so every
run reaches an end — a normal return or a raised error. -/
theorem C8_termination :
    (∀ fuel alphabet g regex index tn, regex.length < fuel →
        recursiveBuild fuel alphabet g regex index tn ≠ .fuelOut) ∧
      (∀ fuel₁ fuel₂ (regex : String) A g subs,
        regex.data.length < fuel₁ → regex.data.length < fuel₂ →
        scan fuel₁ regex.data 0 A g subs = scan fuel₂ regex.data 0 A g subs) :=
  ⟨recursiveBuild_no_fuelOut,
    fun fuel₁ fuel₂ regex A g subs h1 h2 =>
      scan_fuel_congr regex.data regex.data.length fuel₁ fuel₂ 0 A g subs
        (by omega) h1 h2⟩

/-- C8 (witness): the termination theorem applied to the input `"ab"`:
a budget of 3 does not run out, and the scan gives the same result with
budgets 3 and 4. -/
theorem C8_termination_witness :
    recursiveBuild 3 [] [] "ab" 0 "term" ≠ .fuelOut ∧
      scan 3 "ab".data 0 [] [("<S>", [])] [] =
        scan 4 "ab".data 0 [] [("<S>", [])] [] :=
  ⟨C8_termination.1 3 [] [] "ab" 0 "term" (by decide),
    C8_termination.2 3 4 "ab" [] [("<S>", [])] [] (by decide) (by decide)⟩

/-- C9: `check_rule` returns a falsy value on every input — `False`
(`some false`) or `None` (`none`), never a truthy value — so callers
cannot distinguish acceptance from rejection, and the branch of
`recursiveBuild` guarded by `if check_rule(text[0:-1])` is never taken:
no run of `recursiveBuild` ever reaches the TypeError that branch would
raise. -/
theorem C9_check_rule_falsy :
    (∀ s : String, truthy (check_rule s) = false) ∧
      (∀ s : String, check_rule s = some false ∨ check_rule s = none) ∧
      (∀ fuel alphabet g regex index tn,
        recursiveBuild fuel alphabet g regex index tn ≠ .err .typeError) := by
  refine ⟨check_rule_falsy, ?_, recursiveBuild_ne_typeError⟩
  intro s
  simp only [check_rule]
  repeat' split
  all_goals simp

/-- C10: `parse_regex_to_grammar` is total — it is a Lean function
defined on every input string, embedded with every partial operation
guarded exactly as in the source, so it never raises — and for every
input the returned grammar contains the key `<S>` and the returned
alphabet is a sorted list. -/
theorem C10_total (regex : String) :
    isKey (parse_regex_to_grammar regex).2 "<S>" = true ∧
      List.Sorted (· ≤ ·) (parse_regex_to_grammar regex).1 :=
  ⟨parse_isKey_start regex, (parse_alphabet regex).2⟩

end Reggie
